import Mathlib

/-!
# Verification of the Sabi audio-fingerprinting engine

Shallow embedding of the recognition pipeline of the Sabi repository:

* `src/fingerprint.rs`   — fingerprint hashing and the match voter (namespace `FP`),
  modelled over `ℚ` (the Rust code computes on `f32`/`f64`; the claims under test
  are about the algorithmic structure, so exact rational arithmetic is used);
* `src/db/connector.rs`  — the ingest writer's deduplication (namespace `DBC`);
* `src/audio_processor.rs` — the linear resampler (namespace `AP`);
* `src/fft/complex.rs` and `src/fft/fft.rs` — complex arithmetic, Hann window,
  Cooley–Tukey FFT, peak finding and frame iteration (namespace `FFT`), modelled
  over `ℝ` because the code uses `cos`, `sin` and `sqrt`.

Definitions are translated from the Rust source.  Definitions whose doc comment
starts with `Spec formula` follow the words of the specification instead, and are
compared against the source-derived ones.
-/

namespace Sabi

namespace FP

/-- Truncation toward zero, the behaviour of Rust's `as` cast from a float to an
integer type (before saturation at the integer type's bounds). -/
def qtrunc (q : ℚ) : ℤ := if 0 ≤ q then ⌊q⌋ else ⌈q⌉

/-- Rust `f as i32`: truncate toward zero, saturating at the `i32` bounds. -/
def asI32 (q : ℚ) : ℤ := max (-(2 ^ 31)) (min (2 ^ 31 - 1) (qtrunc q))

/-- Rust `f as u32`: truncate toward zero, saturating at `0` and `u32::MAX`. -/
def asU32 (q : ℚ) : ℕ := (max 0 (min (2 ^ 32 - 1) (qtrunc q))).toNat

/-- Rust `x as u32` on an `i32` value: reinterpret modulo `2^32`. -/
def i32AsU32 (z : ℤ) : ℕ := (z % 2 ^ 32).toNat

/-- `PeakInfo` from `src/fft/fft.rs`, as consumed by `fingerprint.rs`
(the `OrderedFloat` wrapper is dropped; `f32` values are modelled as `ℚ`). -/
structure PeakInfo where
  freq : ℚ
  magnitude : ℚ
deriving DecidableEq

/-- `FFTDistribution` from `src/fft/fft.rs`, as consumed by `fingerprint.rs`. -/
structure FFTDistribution where
  time : ℚ
  peaks : List PeakInfo
deriving DecidableEq

/-- `FingerprintInfo` from `src/fingerprint.rs`. -/
structure FingerprintInfo where
  hash : ℕ
  abs_anchor_tm_offset : ℚ
  song_id : ℕ
deriving DecidableEq

/-- `MAX_TARGET_ZONE` from `src/fingerprint.rs`. -/
def MAX_TARGET_ZONE : ℕ := 5

/-- `MIN_TARGET_ZONE_DIST` from `src/fingerprint.rs`. -/
def MIN_TARGET_ZONE_DIST : ℕ := 1

/-- The hash packing of `generate_audio_fingerprint` (`src/fingerprint.rs:59-70`):
`anchor_freq as i32 as u32`, `target_freq as i32 as u32`,
`delta_ms = ((time_delta * 1000.0) as u32).min(16383)`, then
`anchor << 23 | target << 14 | delta_ms` in `u32` arithmetic (shifts discard the
bits pushed past bit 31), and the `u32` result is zero-extended to `u64`. -/
def packHash (anchor_freq target_freq time_delta : ℚ) : ℕ :=
  let a := i32AsU32 (asI32 anchor_freq)
  let t := i32AsU32 (asI32 target_freq)
  let delta_ms := min (asU32 (time_delta * 1000)) 16383
  ((a <<< 23) % 2 ^ 32) ||| ((t <<< 14) % 2 ^ 32) ||| delta_ms

/-- `generate_audio_fingerprint` from `src/fingerprint.rs:30-83`.  For each frame
`idx` and each anchor peak in it, pairs the anchor with every peak of the frames
`idx + MIN_TARGET_ZONE_DIST ..< min (idx + MAX_TARGET_ZONE) buf_len` and emits
one `FingerprintInfo` per pair (the debug `println!` is I/O only and is omitted;
`song_id` is hard-coded to 1 as in the source). -/
def generate_audio_fingerprint (fft_buffer : List FFTDistribution) :
    List FingerprintInfo :=
  fft_buffer.enum.flatMap fun p =>
    p.2.peaks.flatMap fun anchor_peak =>
      let start_idx := p.1 + MIN_TARGET_ZONE_DIST
      let end_idx := min (p.1 + MAX_TARGET_ZONE) fft_buffer.length
      if start_idx ≥ end_idx then []
      else
        ((fft_buffer.drop start_idx).take (end_idx - start_idx)).flatMap fun slice =>
          slice.peaks.map fun target_peak =>
            { hash := packHash anchor_peak.freq target_peak.freq
                (slice.time - p.2.time)
              abs_anchor_tm_offset := p.2.time
              song_id := 1 }

/-- Spec formula for the fingerprint hash (spec §4.4/§6.1): frequency bins of
50 Hz (`round(freq / 50)`), `delta_bin = min (round (Δt / 0.1)) 16383`, packed as
`anchor_bin <<< 30 ||| target_bin <<< 14 ||| delta_bin` in 64-bit arithmetic. -/
def specHash (anchor_freq target_freq time_delta : ℚ) : ℕ :=
  ((round (anchor_freq / 50)).toNat <<< 30) |||
    ((round (target_freq / 50)).toNat <<< 14) |||
    min (round (time_delta / (1 / 10))).toNat 16383

/-- `VoteResult` from `src/fingerprint.rs`. -/
structure VoteResult where
  song_id : ℕ
  score : ℕ
  time_offset : ℚ
deriving DecidableEq

/-- The per-song match list built by the first loop of `vote_best_matches`
(`src/fingerprint.rs:104-115`): for song `sid`, the `(query_time, db_time)`
pairs pushed into `matches[sid]`, in query order. -/
def matchesFor (query : List FingerprintInfo) (db : List (ℕ × List (ℕ × ℚ)))
    (sid : ℕ) : List (ℚ × ℚ) :=
  query.flatMap fun fp =>
    ((db.lookup fp.hash).getD []).filterMap fun st =>
      if st.1 = sid then some (fp.abs_anchor_tm_offset, st.2) else none

/-- The song ids that receive at least one match entry (the key set of the
`matches` hash map in `vote_best_matches`, with multiplicity). -/
def matchedSongs (query : List FingerprintInfo) (db : List (ℕ × List (ℕ × ℚ))) :
    List ℕ :=
  query.flatMap fun fp => ((db.lookup fp.hash).getD []).map Prod.fst

/-- The pairwise count of `vote_best_matches` (`src/fingerprint.rs:134-143`):
the number of index pairs `i < j` of the match list with
`||qtᵢ - qtⱼ| - |dbᵢ - dbⱼ|| < 0.1`.  The double loop over `i < j` is modelled
by head-against-tail recursion, which enumerates exactly those pairs. -/
def pairCount : List (ℚ × ℚ) → ℕ
  | [] => 0
  | t :: ts =>
      ts.countP (fun u => decide (|(|t.1 - u.1|) - (|t.2 - u.2|)| < 1 / 10)) +
        pairCount ts

/-- The displayed time offset of `vote_best_matches`
(`src/fingerprint.rs:126-131`): the mean of `db_time - sample_time`. -/
def avgOffset (ts : List (ℚ × ℚ)) : ℚ :=
  (ts.map fun t => t.2 - t.1).sum / ts.length

/-- The `(score, time_offset)` pair inserted into `scores` for one song
(`src/fingerprint.rs:120-146`): `(0, 0)` for an empty match list, otherwise the
pairwise count and the average offset. -/
def scoreFor (query : List FingerprintInfo) (db : List (ℕ × List (ℕ × ℚ)))
    (sid : ℕ) : ℕ × ℚ :=
  let ts := matchesFor query db sid
  if ts.isEmpty then (0, 0) else (pairCount ts, avgOffset ts)

/-- `vote_best_matches` from `src/fingerprint.rs:94-162`.  The two Rust hash
maps (`matches`, then `scores`) are iterated in an order the `std` `HashMap`
leaves unspecified and randomizes between runs; the composite enumeration order
of the matched song ids is made explicit here as the `order` parameter (a run of
the Rust function corresponds to some `order` enumerating the matched songs
without repetition).  `_delta_bucket_secs` is unused, as in the source.  The
source truncates only when `scored.len() > top_k`, which is `List.take top_k`. -/
def vote_best_matches (query : List FingerprintInfo)
    (db : List (ℕ × List (ℕ × ℚ))) ( _delta_bucket_secs : ℚ) (order : List ℕ)
    (top_k : ℕ) : List VoteResult :=
  if query.isEmpty then []
  else
    let scored := order.map fun sid =>
      let s := scoreFor query db sid
      VoteResult.mk sid s.1 s.2
    (scored.mergeSort fun a b => decide (b.score ≤ a.score)).take top_k

/-- Spec formula for a song's score (spec §4.5, offset histogram): quantize each
offset `db_time - query_time` to 20 ms bins by `round (offset / 0.020)`; the
score is the maximum bin population. -/
def specHistogramScore (ts : List (ℚ × ℚ)) : ℕ :=
  let bins := ts.map fun t => round ((t.2 - t.1) / (2 / 100))
  ((bins.map fun b => bins.count b).max?).getD 0

end FP

namespace FFT

/-- `Complex` from `src/fft/complex.rs`, with `f32` modelled as `ℝ`. -/
structure Complex where
  re : ℝ
  im : ℝ

/-- `Complex::new` (`src/fft/complex.rs:8-10`). -/
def Complex.new (re im : ℝ) : Complex := ⟨re, im⟩

/-- `Complex::from_polar` (`src/fft/complex.rs:12-17`). -/
noncomputable def Complex.from_polar (r theta : ℝ) : Complex :=
  ⟨r * Real.cos theta, r * Real.sin theta⟩

/-- `Complex::norm_sqr` (`src/fft/complex.rs:19-21`). -/
def Complex.norm_sqr (c : Complex) : ℝ := c.re * c.re + c.im * c.im

/-- `impl Add for Complex` (`src/fft/complex.rs:24-33`). -/
def Complex.add (a b : Complex) : Complex := ⟨a.re + b.re, a.im + b.im⟩

/-- `impl Mul for Complex` (`src/fft/complex.rs:35-45`), translated verbatim:
the imaginary part the source computes is `self.im * rhs.re + self.im * rhs.re`
(the line below the comment stating `(a + bi)*(c + di) => (ac - bd) + i(ad + bc)`). -/
def Complex.mul (a b : Complex) : Complex :=
  ⟨a.re * b.re - a.im * b.im, a.im * b.re + a.im * b.re⟩

/-- Spec formula for complex multiplication:
`(a+bi)(c+di) = (ac−bd) + i(ad+bc)` exactly. -/
def Complex.spec_mul (a b : Complex) : Complex :=
  ⟨a.re * b.re - a.im * b.im, a.re * b.im + a.im * b.re⟩

/-- `impl Sub for Complex` (`src/fft/complex.rs:47-56`). -/
def Complex.sub (a b : Complex) : Complex := ⟨a.re - b.re, a.im - b.im⟩

/-- `PeakInfo` from `src/fft/fft.rs` (`f32` as `ℝ`). -/
structure PeakInfo where
  freq : ℝ
  magnitude : ℝ

/-- `FFTDistribution` from `src/fft/fft.rs`. -/
structure FFTDistribution where
  time : ℝ
  peaks : List PeakInfo

/-- `CooleyTukeyFFT` from `src/fft/fft.rs` (the two configuration fields). -/
structure CooleyTukeyFFT where
  CHUNK_SIZE : ℕ
  OVERLAP_SIZE : ℕ

/-- `apply_hann_window` (`src/fft/fft.rs:36-49`), translated verbatim: the
multiplier the source computes is `0.5 * cos(1 - (2·π·i) / (n - 1))` — the
`cos` is applied to `1 - num/denom`, not to `num/denom` alone. -/
noncomputable def apply_hann_window (chunk : List ℝ) : List ℝ :=
  let n := chunk.length
  chunk.enum.map fun p =>
    let num := 2 * Real.pi * (p.1 : ℝ)
    let denom := (n : ℝ) - 1
    p.2 * (0.5 * Real.cos (1 - num / denom))

/-- Spec formula for the Hann window: `w[i] = 0.5·(1 − cos(2π·i/(N−1)))`
applied pointwise. -/
noncomputable def specHannWindow (chunk : List ℝ) : List ℝ :=
  chunk.enum.map fun p =>
    p.2 * (0.5 * (1 - Real.cos (2 * Real.pi * (p.1 : ℝ) / ((chunk.length : ℝ) - 1))))

/-- Splits a list into its even-index and odd-index elements, as the loop at
`src/fft/fft.rs:60-66` does. -/
def deinterleave {α : Type} : List α → List α × List α
  | [] => ([], [])
  | x :: xs =>
      let p := deinterleave xs
      (x :: p.2, p.1)

/-- `cooley_tukey_fft` (`src/fft/fft.rs:51-93`), with an explicit fuel in place
of the Rust recursion (which always recurses on lists of at most half the
length, so a fuel of `buf.length` is never exhausted).  The in-place writes
`buf[j]` / `buf[j + n/2]` for `j < n/2` become two mapped blocks; positions
`≥ 2·(n/2)` are never written and keep the input values, which is
`buf.drop (2 * (n / 2))`. -/
noncomputable def cooleyTukeyAux : ℕ → List Complex → List Complex
  | 0, buf => buf
  | fuel + 1, buf =>
      let n := buf.length
      if n ≤ 1 then buf
      else
        let p := deinterleave buf
        let even := cooleyTukeyAux fuel p.1
        let odd := cooleyTukeyAux fuel p.2
        ((List.range (n / 2)).map fun (j : ℕ) =>
            let theta := 2 * Real.pi * (j : ℝ) / (n : ℝ)
            let omega := Complex.from_polar 1 (-theta)
            (even.getD j ⟨0, 0⟩).add (omega.mul (odd.getD j ⟨0, 0⟩))) ++
          ((List.range (n / 2)).map fun (j : ℕ) =>
            let theta := 2 * Real.pi * (j : ℝ) / (n : ℝ)
            let omega := Complex.from_polar 1 (-theta)
            (even.getD j ⟨0, 0⟩).sub (omega.mul (odd.getD j ⟨0, 0⟩))) ++
          buf.drop (2 * (n / 2))

/-- `cooley_tukey_fft` entry point on a whole buffer. -/
noncomputable def cooley_tukey_fft (buf : List Complex) : List Complex :=
  cooleyTukeyAux buf.length buf

/-- `convert_to_complex_buffer` (`src/fft/fft.rs:235-240`). -/
def convert_to_complex_buffer (buffer : List ℝ) : List Complex :=
  buffer.map fun sample => Complex.new sample 0

/-- `perform_fft` (`src/fft/fft.rs:95-101`). -/
noncomputable def perform_fft (buff : List ℝ) : List Complex :=
  cooley_tukey_fft (convert_to_complex_buffer buff)

/-- `FreqRange` from `src/fft/fft.rs:243-255`. -/
inductive FreqRange
  | Low
  | High

/-- `FreqRange::get_freq`. -/
def FreqRange.get_freq : FreqRange → ℝ
  | .Low => 20
  | .High => 5000

/-- The magnitude list of `find_peaks` (`src/fft/fft.rs:142-146`): Euclidean
norms of the first `n/2` spectrum entries. -/
noncomputable def magnitudesOf (complex_buffer : List Complex) : List ℝ :=
  (complex_buffer.take (complex_buffer.length / 2)).map fun c =>
    Real.sqrt c.norm_sqr

/-- The per-frame normalization of `find_peaks` (`src/fft/fft.rs:148-155`):
divide by the maximum magnitude when it is positive. -/
noncomputable def normalizedMagnitudes (complex_buffer : List Complex) : List ℝ :=
  let mags := magnitudesOf complex_buffer
  match mags.max? with
  | none => mags
  | some max_val => if 0 < max_val then mags.map (· / max_val) else mags

/-- The raw local-maxima scan of `find_peaks` (`src/fft/fft.rs:157-174`):
indices `1 ..< half_n - 1`, strict local maximum, frequency `i · (sr / n)`
strictly between the 20 Hz and 5000 Hz limits.  (For `n ≤ 1` the Rust index
range is empty or panics on underflow; it is modelled as empty.) -/
noncomputable def rawPeaks (complex_buffer : List Complex) (sample_rate : ℕ) :
    List PeakInfo :=
  let n := complex_buffer.length
  let half_n := n / 2
  let mags := normalizedMagnitudes complex_buffer
  (List.range' 1 (half_n - 1 - 1)).filterMap fun i =>
    if mags.getD (i - 1) 0 < mags.getD i 0 ∧ mags.getD (i + 1) 0 < mags.getD i 0 then
      let freq := (i : ℝ) * ((sample_rate : ℝ) / (n : ℝ))
      if FreqRange.Low.get_freq < freq ∧ freq < FreqRange.High.get_freq then
        some ⟨freq, mags.getD i 0⟩
      else none
    else none

/-- The low band `20.0..300.0` of `find_peaks` (`src/fft/fft.rs:177-181`). -/
noncomputable def lowBand (complex_buffer : List Complex) (sample_rate : ℕ) :
    List PeakInfo :=
  (rawPeaks complex_buffer sample_rate).filter fun p =>
    decide (20 ≤ p.freq ∧ p.freq < 300)

/-- The mid band `300.0..2000.0` of `find_peaks` (`src/fft/fft.rs:183-187`). -/
noncomputable def midBand (complex_buffer : List Complex) (sample_rate : ℕ) :
    List PeakInfo :=
  (rawPeaks complex_buffer sample_rate).filter fun p =>
    decide (300 ≤ p.freq ∧ p.freq < 2000)

/-- The high band `2000.0..5000.0` of `find_peaks` (`src/fft/fft.rs:189-193`). -/
noncomputable def highBand (complex_buffer : List Complex) (sample_rate : ℕ) :
    List PeakInfo :=
  (rawPeaks complex_buffer sample_rate).filter fun p =>
    decide (2000 ≤ p.freq ∧ p.freq < 5000)

/-- `THRESHOLD_MULTIPLIER` from `src/fft/fft.rs:197`. -/
noncomputable def THRESHOLD_MULTIPLIER : ℝ := 1.75

/-- `MAX_PEAKS_PER_BAND` from `src/fft/fft.rs:198`. -/
def MAX_PEAKS_PER_BAND : ℕ := 5

/-- The `process_band` closure of `find_peaks` (`src/fft/fft.rs:201-226`):
empty band → empty; otherwise keep the peaks stronger than 1.75× the band's
average magnitude, sort them by magnitude descending (stable), and truncate to
`MAX_PEAKS_PER_BAND`. -/
noncomputable def process_band (band : List PeakInfo) : List PeakInfo :=
  if band.isEmpty then []
  else
    let total_magnitude := (band.map fun p => p.magnitude).sum
    let average_magnitude := total_magnitude / (band.length : ℝ)
    let threshold := average_magnitude * THRESHOLD_MULTIPLIER
    let strong_peaks := band.filter fun p => decide (threshold < p.magnitude)
    (strong_peaks.mergeSort fun a b => decide (b.magnitude ≤ a.magnitude)).take
      MAX_PEAKS_PER_BAND

/-- `find_peaks` (`src/fft/fft.rs:138-234`): the three processed bands
concatenated. -/
noncomputable def find_peaks (complex_buffer : List Complex) (sample_rate : ℕ) :
    List PeakInfo :=
  process_band (lowBand complex_buffer sample_rate) ++
    process_band (midBand complex_buffer sample_rate) ++
      process_band (highBand complex_buffer sample_rate)

/-- One frame of `generate_freq_time_distribution` (`src/fft/fft.rs:114-130`):
window, FFT and peak-find the `CHUNK_SIZE` samples at `position`, with
timestamp `position / sample_rate`. -/
noncomputable def frameAt (fft : CooleyTukeyFFT) (buffer : List ℝ)
    (sample_rate : ℕ) (position : ℕ) : FFTDistribution :=
  let chunk := (buffer.drop position).take fft.CHUNK_SIZE
  let windowed_chunk := apply_hann_window chunk
  let fft_output := perform_fft windowed_chunk
  let peaks := find_peaks fft_output sample_rate
  ⟨(position : ℝ) / (sample_rate : ℝ), peaks⟩

/-- The `while position + CHUNK_SIZE <= buf_len` loop of
`generate_freq_time_distribution` (`src/fft/fft.rs:114-133`), with an explicit
fuel: each iteration advances `position` by `CHUNK_SIZE - OVERLAP_SIZE`, so
when `OVERLAP_SIZE < CHUNK_SIZE` a fuel of `buffer.length + 1` is never
exhausted (theorem `c10_frame_iteration`; the Rust loop terminates under the
same condition). -/
noncomputable def genAux (fft : CooleyTukeyFFT) (buffer : List ℝ)
    (sample_rate : ℕ) : ℕ → ℕ → List FFTDistribution
  | 0, _ => []
  | fuel + 1, position =>
      if position + fft.CHUNK_SIZE ≤ buffer.length then
        frameAt fft buffer sample_rate position ::
          genAux fft buffer sample_rate fuel
            (position + (fft.CHUNK_SIZE - fft.OVERLAP_SIZE))
      else []

/-- `generate_freq_time_distribution` (`src/fft/fft.rs:103-136`); the
`println!` is I/O only and is omitted. -/
noncomputable def generate_freq_time_distribution (fft : CooleyTukeyFFT)
    (buffer : List ℝ) (sample_rate : ℕ) : List FFTDistribution :=
  genAux fft buffer sample_rate (buffer.length + 1) 0

/-- The number of loop iterations of `generate_freq_time_distribution` that
remain when the current position is `position`: frames start at
`position, position + h, …` with `h = CHUNK_SIZE - OVERLAP_SIZE`, while
`start + CHUNK_SIZE ≤ len`. -/
def numFramesFrom (fft : CooleyTukeyFFT) (len position : ℕ) : ℕ :=
  if position + fft.CHUNK_SIZE ≤ len then
    (len - fft.CHUNK_SIZE - position) / (fft.CHUNK_SIZE - fft.OVERLAP_SIZE) + 1
  else 0

end FFT

namespace AP

/-- The `for i in 0..new_len` loop of `resample_linear`
(`src/audio_processor.rs:226-241`): countdown on the remaining iterations,
`i` the current index.  `floor() as usize` is `Int.toNat ∘ Int.floor`
(saturation at 0) and `fract()` is `x - trunc x`. -/
def resampleLoop (samples : List ℚ) (ratio : ℚ) : ℕ → ℕ → List ℚ
  | 0, _ => []
  | rem + 1, i =>
      let in_idx_float := (i : ℚ) * ratio
      let in_idx_int := (⌊in_idx_float⌋).toNat
      let frac := in_idx_float - (FP.qtrunc in_idx_float : ℚ)
      if in_idx_int + 1 < samples.length then
        (samples.getD in_idx_int 0 +
            frac * (samples.getD (in_idx_int + 1) 0 - samples.getD in_idx_int 0)) ::
          resampleLoop samples ratio rem (i + 1)
      else if in_idx_int < samples.length then
        samples.getD in_idx_int 0 :: resampleLoop samples ratio rem (i + 1)
      else []

/-- `resample_linear` (`src/audio_processor.rs:218-243`).  `f32`/`f64` values
are modelled as `ℚ`; `(samples.len() as f64 / ratio) as usize` is truncation
toward zero saturating at 0.  (When a rate is 0 the Rust float division yields
`inf`/`NaN`; the claims only concern positive rates.) -/
def resample_linear (samples : List ℚ) (from_rate to_rate : ℕ) : List ℚ :=
  if from_rate = to_rate then samples
  else
    let ratio : ℚ := (from_rate : ℚ) / (to_rate : ℚ)
    let new_len := (FP.qtrunc ((samples.length : ℚ) / ratio)).toNat
    resampleLoop samples ratio new_len 0

/-- Spec formula for one resampled element (spec §4.1): `p = i·r`, `k = ⌊p⌋`,
`f = p − k`; emit `x[k] + f·(x[k+1] − x[k])` when `k+1 < len`, else `x[k]`. -/
def specResampleElem (samples : List ℚ) (ratio : ℚ) (i : ℕ) : ℚ :=
  let p := (i : ℚ) * ratio
  let k := (⌊p⌋).toNat
  let f := p - (k : ℚ)
  if k + 1 < samples.length then
    samples.getD k 0 + f * (samples.getD (k + 1) 0 - samples.getD k 0)
  else samples.getD k 0

end AP

namespace DBC

/-- Rust `f32::round`: round half away from zero. -/
def rustRound (q : ℚ) : ℤ := if 0 ≤ q then ⌊q + 1 / 2⌋ else ⌈q - 1 / 2⌉

/-- Rust `f as i64` on a float value: truncation is already done by
`rustRound`; saturate at the `i64` bounds. -/
def asI64 (z : ℤ) : ℤ := max (-(2 ^ 63)) (min (2 ^ 63 - 1) z)

/-- Rust `u64 as i64`: reinterpret modulo `2^64`. -/
def u64AsI64 (n : ℕ) : ℤ :=
  let m : ℕ := n % 2 ^ 64
  if m < 2 ^ 63 then (m : ℤ) else (m : ℤ) - 2 ^ 64

/-- The `Fingerprint` row from `src/db/bindings.rs` as built by
`write_fingerprints` (`src/db/connector.rs:58-63`); the `created_at`
`SystemTime` field is I/O and is omitted. -/
structure Fingerprint where
  hash : ℤ
  absolute_time_offset : ℚ
  song_id : ℤ
deriving DecidableEq

/-- The deduplication key of `write_fingerprints` (`src/db/connector.rs:53-56`):
`(hash, (abs_anchor_tm_offset * 100.0).round() as i64)`. -/
def dedupKey (f : FP.FingerprintInfo) : ℕ × ℤ :=
  (f.hash, asI64 (rustRound (f.abs_anchor_tm_offset * 100)))

/-- The dedup loop of `write_fingerprints` (`src/db/connector.rs:49-65`): the
`HashSet` of already-seen keys is modelled as a list; `seen.insert(key)`
returns true exactly when the key was not yet present. -/
def dedupAux (seen : List (ℕ × ℤ)) : List FP.FingerprintInfo →
    List FP.FingerprintInfo
  | [] => []
  | f :: fs =>
      if dedupKey f ∈ seen then dedupAux seen fs
      else f :: dedupAux (dedupKey f :: seen) fs

/-- The fingerprints kept by the dedup loop of `write_fingerprints`, in input
order. -/
def dedupFingerprints (l : List FP.FingerprintInfo) : List FP.FingerprintInfo :=
  dedupAux [] l

/-- The rows `write_fingerprints` submits for insertion for `song_id`
(`src/db/connector.rs:52-65`): one `Fingerprint` row per kept input, built in
the same loop that deduplicates (`hash as i64`, the `f32` time widened to
`f64`, the given `song_id`). -/
def write_fingerprints_rows (song_id : ℤ) (fingerprint_info : List FP.FingerprintInfo) :
    List Fingerprint :=
  (dedupFingerprints fingerprint_info).map fun f =>
    ⟨u64AsI64 f.hash, f.abs_anchor_tm_offset, song_id⟩

/-- Placeholder record used by `List.getD` in the index-based description of
the deduplication; it is never selected at an in-range index. -/
def defaultFP : FP.FingerprintInfo := ⟨0, 0, 0⟩

/-- The condition of `specAuxList`: index `i` of `l` is kept iff its key is not
in `seen` and no earlier index has the same key. -/
def specAuxCond (seen : List (ℕ × ℤ)) (l : List FP.FingerprintInfo) (i : ℕ) : Bool :=
  decide (dedupKey (l.getD i defaultFP) ∉ seen ∧
    ∀ j < i, dedupKey (l.getD j defaultFP) ≠ dedupKey (l.getD i defaultFP))

/-- Generalization of `specFirstOccurrences` to a starting `seen` set. -/
def specAuxList (seen : List (ℕ × ℤ)) (l : List FP.FingerprintInfo) :
    List FP.FingerprintInfo :=
  ((List.range l.length).filter (specAuxCond seen l)).map fun i => l.getD i defaultFP

/-- Declarative description of the claimed deduplication: keep exactly those
positions of the input whose key does not occur at any earlier position — the
first occurrence of each key, in input order. -/
def specFirstOccurrences (l : List FP.FingerprintInfo) : List FP.FingerprintInfo :=
  ((List.range l.length).filter fun i =>
      decide (∀ j < i, dedupKey (l.getD j defaultFP) ≠ dedupKey (l.getD i defaultFP))).map
    fun i => l.getD i defaultFP

end DBC

end Sabi

open Sabi Sabi.FP

/-! ## Helper lemmas -/

theorem packHash_lt_two_pow_32 (a t d : ℚ) : packHash a t d < 2 ^ 32 := by
  unfold packHash
  refine Nat.or_lt_two_pow (Nat.or_lt_two_pow ?_ ?_) ?_
  · exact Nat.mod_lt _ (by norm_num)
  · exact Nat.mod_lt _ (by norm_num)
  · exact lt_of_le_of_lt (min_le_right _ _) (by norm_num)

/-! ## Claim theorems -/

set_option maxHeartbeats 2000000 in
/-- C1, counterexample.  On the two-frame buffer with an anchor peak at 100 Hz
(time 0 s) and a target peak at 200 Hz (time 0.1 s), `generate_audio_fingerprint`
emits the single hash `100 <<< 23 ||| 200 <<< 14 ||| 100 = 842137700`, while the
spec's layout `(round(100/50) <<< 30) ||| (round(200/50) <<< 14) ||| 1` gives
`2147549185`: the emitted hash does not equal the spec formula. -/
theorem c1_hash_layout_counterexample :
    generate_audio_fingerprint [⟨0, [⟨100, 1⟩]⟩, ⟨1 / 10, [⟨200, 1⟩]⟩] =
        [⟨842137700, 0, 1⟩] ∧
      specHash 100 200 (1 / 10) = 2147549185 ∧ (842137700 : ℕ) ≠ 2147549185 := by
  refine ⟨?_, ?_, by decide⟩
  · norm_num [generate_audio_fingerprint, packHash, i32AsU32, asI32, asU32, qtrunc,
      Nat.shiftLeft_eq, List.enum, List.enumFrom, MAX_TARGET_ZONE, MIN_TARGET_ZONE_DIST]
    decide
  · norm_num [specHash, Nat.shiftLeft_eq, round_eq]
    decide

/-- C1, amended.  Every fingerprint emitted by `generate_audio_fingerprint`
comes from an anchor peak of some frame `i` and a target peak of a frame in the
window `i+1 ..< min (i+5) len`; its hash is the 32-bit value
`(anchor_freq as i32 as u32) <<< 23 ||| (target_freq as i32 as u32) <<< 14 |||
min ((Δt·1000) as u32) 16383` (computed in `u32`, so it is below `2^32` and the
spec's bits 63..32 are never used), and its time field is the anchor frame's
time. -/
theorem c1_hash_layout_amended (buf : List FFTDistribution)
    (fp : FingerprintInfo) (hfp : fp ∈ generate_audio_fingerprint buf) :
    fp.hash < 2 ^ 32 ∧
      ∃ i dist anchor slice target,
        buf[i]? = some dist ∧ anchor ∈ dist.peaks ∧
          slice ∈ (buf.drop (i + 1)).take (min (i + 5) buf.length - (i + 1)) ∧
            target ∈ slice.peaks ∧
              fp = ⟨packHash anchor.freq target.freq (slice.time - dist.time),
                dist.time, 1⟩ := by
  unfold generate_audio_fingerprint at hfp
  simp only [MAX_TARGET_ZONE, MIN_TARGET_ZONE_DIST, List.mem_flatMap] at hfp
  obtain ⟨p, hp, anchor, hanchor, hfp⟩ := hfp
  rw [List.mem_enum_iff_getElem?] at hp
  split at hfp
  · simp at hfp
  · simp only [List.mem_flatMap, List.mem_map] at hfp
    obtain ⟨slice, hslice, target, htarget, hfp⟩ := hfp
    exact ⟨hfp ▸ packHash_lt_two_pow_32 _ _ _,
      p.1, p.2, anchor, slice, target, hp, hanchor, hslice, htarget, hfp.symm⟩

set_option maxHeartbeats 2000000 in
/-- C1, witness for the amended theorem at the concrete two-frame buffer. -/
theorem c1_hash_layout_amended_witness :
    (⟨842137700, 0, 1⟩ : FingerprintInfo) ∈
        generate_audio_fingerprint [⟨0, [⟨100, 1⟩]⟩, ⟨1 / 10, [⟨200, 1⟩]⟩] ∧
      ((⟨842137700, 0, 1⟩ : FingerprintInfo).hash < 2 ^ 32 ∧
        ∃ i dist anchor slice target,
          [⟨0, [⟨100, 1⟩]⟩, (⟨1 / 10, [⟨200, 1⟩]⟩ : FFTDistribution)][i]? =
              some dist ∧
            anchor ∈ dist.peaks ∧
              slice ∈ (([⟨0, [⟨100, 1⟩]⟩, ⟨1 / 10, [⟨200, 1⟩]⟩] :
                  List FFTDistribution).drop (i + 1)).take (min (i + 5) 2 - (i + 1)) ∧
                target ∈ slice.peaks ∧
                  (⟨842137700, 0, 1⟩ : FingerprintInfo) =
                    ⟨packHash anchor.freq target.freq (slice.time - dist.time),
                      dist.time, 1⟩) :=
  have hmem : (⟨842137700, 0, 1⟩ : FingerprintInfo) ∈
      generate_audio_fingerprint [⟨0, [⟨100, 1⟩]⟩, ⟨1 / 10, [⟨200, 1⟩]⟩] := by
    norm_num [generate_audio_fingerprint, packHash, i32AsU32, asI32, asU32, qtrunc,
      Nat.shiftLeft_eq, List.enum, List.enumFrom, MAX_TARGET_ZONE, MIN_TARGET_ZONE_DIST]
    decide
  ⟨hmem, c1_hash_layout_amended _ _ hmem⟩

/-- C2, counterexample.  Query fingerprints at times 0 s and 10 s both collide
with song 7 at database time 0 s.  The offset histogram of the spec has bins
`{0 ↦ 1, -500 ↦ 1}` and maximum bin count 1, but `vote_best_matches` scores the
song 0 (the single pair violates the 100 ms relative-timing tolerance) and
reports the average offset −5 s, not a bin center. -/
theorem c2_voter_counterexample :
    vote_best_matches [⟨1, 0, 1⟩, ⟨2, 10, 1⟩] [(1, [(7, 0)]), (2, [(7, 0)])] 0
        [7] 5 = [⟨7, 0, -5⟩] ∧
      specHistogramScore
          (matchesFor [⟨1, 0, 1⟩, ⟨2, 10, 1⟩] [(1, [(7, 0)]), (2, [(7, 0)])] 7) =
        1 ∧
      (0 : ℕ) ≠ 1 := by
  have hm : matchesFor [⟨1, 0, 1⟩, ⟨2, 10, 1⟩] [(1, [(7, 0)]), (2, [(7, 0)])] 7 =
      [(0, 0), (10, 0)] := by decide
  have hs : scoreFor [⟨1, 0, 1⟩, ⟨2, 10, 1⟩] [(1, [(7, 0)]), (2, [(7, 0)])] 7 =
      (0, -5) := by
    simp only [scoreFor, hm]
    norm_num [pairCount, avgOffset, List.countP_cons, List.countP_nil,
      decide_eq_true_eq]
  refine ⟨?_, ?_, by decide⟩
  · norm_num [vote_best_matches, hs]
  · norm_num [specHistogramScore, hm, round_eq, List.count_cons, List.max?]

/-- C2, amended.  Every result row of `vote_best_matches` carries a song id
from the enumeration order of the matched songs; its score is the number of
unordered pairs of that song's `(query_time, db_time)` matches whose query time
gap and database time gap differ by less than 0.1 s, and its time offset is the
mean of `db_time - query_time` over those matches (0 and 0 for a song with no
matches). -/
theorem c2_voter_amended (query : List FingerprintInfo)
    (db : List (ℕ × List (ℕ × ℚ))) (d : ℚ) (order : List ℕ) (k : ℕ)
    (r : VoteResult) (hr : r ∈ vote_best_matches query db d order k) :
    r.song_id ∈ order ∧
      (matchesFor query db r.song_id ≠ [] →
          r.score = pairCount (matchesFor query db r.song_id) ∧
            r.time_offset = avgOffset (matchesFor query db r.song_id)) ∧
        (matchesFor query db r.song_id = [] →
          r.score = 0 ∧ r.time_offset = 0) := by
  unfold vote_best_matches at hr
  split at hr
  · simp at hr
  · have hr' := List.mem_mergeSort.mp (List.mem_of_mem_take hr)
    simp only [List.mem_map] at hr'
    obtain ⟨sid, hsid, hmk⟩ := hr'
    subst hmk
    refine ⟨hsid, ?_, ?_⟩ <;> intro hts <;>
      simp_all [scoreFor, List.isEmpty_iff]

set_option maxHeartbeats 2000000 in
/-- C2, witness for the amended theorem: the single result row of the
counterexample input satisfies the pairwise-count description. -/
theorem c2_voter_amended_witness :
    (⟨7, 0, -5⟩ : VoteResult) ∈
        vote_best_matches [⟨1, 0, 1⟩, ⟨2, 10, 1⟩] [(1, [(7, 0)]), (2, [(7, 0)])]
          0 [7] 5 ∧
      ((⟨7, 0, -5⟩ : VoteResult).song_id ∈ [7] ∧
        (matchesFor [⟨1, 0, 1⟩, ⟨2, 10, 1⟩] [(1, [(7, 0)]), (2, [(7, 0)])]
              (⟨7, 0, -5⟩ : VoteResult).song_id ≠ [] →
            (⟨7, 0, -5⟩ : VoteResult).score =
                pairCount (matchesFor [⟨1, 0, 1⟩, ⟨2, 10, 1⟩]
                  [(1, [(7, 0)]), (2, [(7, 0)])] (⟨7, 0, -5⟩ : VoteResult).song_id) ∧
              (⟨7, 0, -5⟩ : VoteResult).time_offset =
                avgOffset (matchesFor [⟨1, 0, 1⟩, ⟨2, 10, 1⟩]
                  [(1, [(7, 0)]), (2, [(7, 0)])] (⟨7, 0, -5⟩ : VoteResult).song_id)) ∧
          (matchesFor [⟨1, 0, 1⟩, ⟨2, 10, 1⟩] [(1, [(7, 0)]), (2, [(7, 0)])]
              (⟨7, 0, -5⟩ : VoteResult).song_id = [] →
            (⟨7, 0, -5⟩ : VoteResult).score = 0 ∧
              (⟨7, 0, -5⟩ : VoteResult).time_offset = 0)) :=
  have hmem : (⟨7, 0, -5⟩ : VoteResult) ∈
      vote_best_matches [⟨1, 0, 1⟩, ⟨2, 10, 1⟩] [(1, [(7, 0)]), (2, [(7, 0)])]
        0 [7] 5 := by
    have hm : matchesFor [⟨1, 0, 1⟩, ⟨2, 10, 1⟩] [(1, [(7, 0)]), (2, [(7, 0)])] 7 =
        [(0, 0), (10, 0)] := by decide
    have hs : scoreFor [⟨1, 0, 1⟩, ⟨2, 10, 1⟩] [(1, [(7, 0)]), (2, [(7, 0)])] 7 =
        (0, -5) := by
      simp only [scoreFor, hm]
      norm_num [pairCount, avgOffset, List.countP_cons, List.countP_nil,
        decide_eq_true_eq]
    norm_num [vote_best_matches, hs]
  ⟨hmem, c2_voter_amended _ _ _ _ _ _ hmem⟩

theorem process_band_length_le (band : List FFT.PeakInfo) :
    (FFT.process_band band).length ≤ 5 := by
  unfold FFT.process_band
  split
  · simp
  · exact List.length_take_le _ _

theorem mem_process_band (band : List FFT.PeakInfo) (p : FFT.PeakInfo)
    (hp : p ∈ FFT.process_band band) : p ∈ band := by
  unfold FFT.process_band at hp
  split at hp
  · simp at hp
  · have h1 := List.mem_of_mem_take hp
    rw [List.mem_mergeSort] at h1
    exact (List.mem_filter.mp h1).1

theorem mem_rawPeaks_bounds (cb : List FFT.Complex) (sr : ℕ) (p : FFT.PeakInfo)
    (hp : p ∈ FFT.rawPeaks cb sr) : 20 < p.freq ∧ p.freq < 5000 := by
  unfold FFT.rawPeaks at hp
  rcases List.mem_filterMap.mp hp with ⟨i, hi, heq⟩
  split at heq
  · dsimp only at heq
    split at heq
    · rename_i hcond
      simp only [Option.some.injEq] at heq
      subst heq
      simpa [FFT.FreqRange.get_freq] using hcond
    · exact absurd heq (by simp)
  · exact absurd heq (by simp)


theorem numFramesFrom_step (fft : FFT.CooleyTukeyFFT) (len pos : ℕ)
    (ho : fft.OVERLAP_SIZE < fft.CHUNK_SIZE)
    (hpos : pos + fft.CHUNK_SIZE ≤ len) :
    FFT.numFramesFrom fft len pos =
      FFT.numFramesFrom fft len (pos + (fft.CHUNK_SIZE - fft.OVERLAP_SIZE)) + 1 := by
  obtain ⟨c, o⟩ := fft
  simp only at ho hpos
  have hh : 0 < c - o := by omega
  unfold FFT.numFramesFrom
  simp only
  rw [if_pos hpos]
  by_cases h2 : pos + (c - o) + c ≤ len
  · rw [if_pos h2]
    have hx : c - o ≤ len - c - pos := by omega
    have hdiv := Nat.div_eq_sub_div hh hx
    have hsub : len - c - pos - (c - o) = len - c - (pos + (c - o)) := by omega
    rw [hdiv, hsub]
  · rw [if_neg h2]
    have hlt : len - c - pos < c - o := by omega
    rw [Nat.div_eq_of_lt hlt]

theorem genAux_eq (fft : FFT.CooleyTukeyFFT) (buffer : List ℝ) (sr : ℕ)
    (ho : fft.OVERLAP_SIZE < fft.CHUNK_SIZE) :
    ∀ fuel pos, FFT.numFramesFrom fft buffer.length pos ≤ fuel →
      FFT.genAux fft buffer sr fuel pos =
        (List.range (FFT.numFramesFrom fft buffer.length pos)).map fun i =>
          FFT.frameAt fft buffer sr
            (pos + i * (fft.CHUNK_SIZE - fft.OVERLAP_SIZE)) := by
  intro fuel
  induction fuel with
  | zero =>
    intro pos hle
    have h0 : FFT.numFramesFrom fft buffer.length pos = 0 := by omega
    rw [h0]
    simp [FFT.genAux]
  | succ n ih =>
    intro pos hle
    by_cases hpos : pos + fft.CHUNK_SIZE ≤ buffer.length
    · have hstep := numFramesFrom_step fft buffer.length pos ho hpos
      rw [FFT.genAux, if_pos hpos, hstep, List.range_succ_eq_map]
      simp only [List.map_cons, List.map_map]
      have hhead : FFT.frameAt fft buffer sr
          (pos + 0 * (fft.CHUNK_SIZE - fft.OVERLAP_SIZE)) =
          FFT.frameAt fft buffer sr pos := by
        norm_num
      rw [hhead]
      congr 1
      rw [ih (pos + (fft.CHUNK_SIZE - fft.OVERLAP_SIZE)) (by omega)]
      apply List.map_congr_left
      intro i hi
      congr 1
      simp only [Nat.succ_eq_add_one]
      ring
    · have h0 : FFT.numFramesFrom fft buffer.length pos = 0 := by
        unfold FFT.numFramesFrom
        rw [if_neg hpos]
      rw [h0]
      simp [FFT.genAux, hpos]


/-- C6.  Every frame's peak list is the concatenation of the three processed
bands, each processed band keeps at most `MAX_PEAKS_PER_BAND = 5` peaks, so at
most 15 survive in total, and every surviving peak's frequency lies strictly
between 20 Hz and 5000 Hz (the raw-peak scan already filters on the open
interval bounded by `FreqRange::Low` and `FreqRange::High`). -/
theorem c6_peak_caps (complex_buffer : List FFT.Complex) (sample_rate : ℕ) :
    (FFT.find_peaks complex_buffer sample_rate).length ≤ 15 ∧
      (FFT.process_band (FFT.lowBand complex_buffer sample_rate)).length ≤ 5 ∧
        (FFT.process_band (FFT.midBand complex_buffer sample_rate)).length ≤ 5 ∧
          (FFT.process_band (FFT.highBand complex_buffer sample_rate)).length ≤ 5 ∧
            FFT.find_peaks complex_buffer sample_rate =
              FFT.process_band (FFT.lowBand complex_buffer sample_rate) ++
                FFT.process_band (FFT.midBand complex_buffer sample_rate) ++
                  FFT.process_band (FFT.highBand complex_buffer sample_rate) ∧
              (FFT.find_peaks complex_buffer sample_rate).Forall fun p =>
                20 < p.freq ∧ p.freq < 5000 := by
  have hlow := process_band_length_le (FFT.lowBand complex_buffer sample_rate)
  have hmid := process_band_length_le (FFT.midBand complex_buffer sample_rate)
  have hhigh := process_band_length_le (FFT.highBand complex_buffer sample_rate)
  refine ⟨?_, hlow, hmid, hhigh, rfl, ?_⟩
  · simp only [FFT.find_peaks, List.length_append]
    omega
  · rw [List.forall_iff_forall_mem]
    intro p hp
    simp only [FFT.find_peaks, List.mem_append] at hp
    have hraw : p ∈ FFT.rawPeaks complex_buffer sample_rate := by
      rcases hp with (h | h) | h
      · exact (List.mem_filter.mp (mem_process_band _ _ h)).1
      · exact (List.mem_filter.mp (mem_process_band _ _ h)).1
      · exact (List.mem_filter.mp (mem_process_band _ _ h)).1
    exact mem_rawPeaks_bounds _ _ _ hraw

/-- C10.  When `OVERLAP_SIZE < CHUNK_SIZE`, the frame iteration terminates and
produces exactly the frames at positions `0, h, 2h, …` with
`h = CHUNK_SIZE − OVERLAP_SIZE`: every emitted frame position still has
`CHUNK_SIZE` samples available, the first skipped position does not (the loop
stops as soon as fewer than `CHUNK_SIZE` samples remain), and the emitted
timestamps are `position / sample_rate`. -/
theorem c10_frame_iteration (fft : FFT.CooleyTukeyFFT) (buffer : List ℝ)
    (sample_rate : ℕ) (ho : fft.OVERLAP_SIZE < fft.CHUNK_SIZE) :
    FFT.generate_freq_time_distribution fft buffer sample_rate =
        ((List.range (FFT.numFramesFrom fft buffer.length 0)).map fun i =>
          FFT.frameAt fft buffer sample_rate
            (i * (fft.CHUNK_SIZE - fft.OVERLAP_SIZE))) ∧
      (∀ i < FFT.numFramesFrom fft buffer.length 0,
          i * (fft.CHUNK_SIZE - fft.OVERLAP_SIZE) + fft.CHUNK_SIZE ≤
            buffer.length) ∧
        buffer.length <
            FFT.numFramesFrom fft buffer.length 0 *
                (fft.CHUNK_SIZE - fft.OVERLAP_SIZE) + fft.CHUNK_SIZE ∧
          (FFT.generate_freq_time_distribution fft buffer sample_rate).map
              (fun fr => fr.time) =
            (List.range (FFT.numFramesFrom fft buffer.length 0)).map fun i =>
              ((i * (fft.CHUNK_SIZE - fft.OVERLAP_SIZE) : ℕ) : ℝ) /
                (sample_rate : ℝ) := by
  have hfuel : FFT.numFramesFrom fft buffer.length 0 ≤ buffer.length + 1 := by
    unfold FFT.numFramesFrom
    split
    · have := Nat.div_le_self (buffer.length - fft.CHUNK_SIZE - 0)
        (fft.CHUNK_SIZE - fft.OVERLAP_SIZE)
      omega
    · omega
  have hmain := genAux_eq fft buffer sample_rate ho (buffer.length + 1) 0 hfuel
  have hgen : FFT.generate_freq_time_distribution fft buffer sample_rate =
      (List.range (FFT.numFramesFrom fft buffer.length 0)).map fun i =>
        FFT.frameAt fft buffer sample_rate
          (i * (fft.CHUNK_SIZE - fft.OVERLAP_SIZE)) := by
    rw [FFT.generate_freq_time_distribution, hmain]
    apply List.map_congr_left
    intro i hi
    rw [Nat.zero_add]
  refine ⟨hgen, ?_, ?_, ?_⟩
  · intro i hi
    unfold FFT.numFramesFrom at hi
    split at hi
    · rename_i hc
      have hi2 : i ≤ (buffer.length - fft.CHUNK_SIZE - 0) /
          (fft.CHUNK_SIZE - fft.OVERLAP_SIZE) := by omega
      have h3 := Nat.mul_le_mul_right (fft.CHUNK_SIZE - fft.OVERLAP_SIZE) hi2
      have h4 := Nat.div_mul_le_self (buffer.length - fft.CHUNK_SIZE - 0)
        (fft.CHUNK_SIZE - fft.OVERLAP_SIZE)
      have h5 := le_trans h3 h4
      have h6 := Nat.add_le_add_right h5 fft.CHUNK_SIZE
      have h7 : buffer.length - fft.CHUNK_SIZE - 0 + fft.CHUNK_SIZE =
          buffer.length := by omega
      rw [h7] at h6
      exact h6
    · omega
  · unfold FFT.numFramesFrom
    split
    · rename_i hc
      have hh : 0 < fft.CHUNK_SIZE - fft.OVERLAP_SIZE := by omega
      have hx := (Nat.div_lt_iff_lt_mul hh).mp
        (Nat.lt_succ_self ((buffer.length - fft.CHUNK_SIZE - 0) /
          (fft.CHUNK_SIZE - fft.OVERLAP_SIZE)))
      have h6 := Nat.add_lt_add_right hx fft.CHUNK_SIZE
      have h7 : buffer.length - fft.CHUNK_SIZE - 0 + fft.CHUNK_SIZE =
          buffer.length := by omega
      rw [h7] at h6
      exact h6
    · rename_i hc
      omega
  · rw [hgen, List.map_map]
    apply List.map_congr_left
    intro i hi
    simp [FFT.frameAt]

/-- C10, witness at `CHUNK_SIZE = 1`, `OVERLAP_SIZE = 0`, a two-sample buffer
and sample rate 1: two frames, at positions 0 and 1. -/
theorem c10_frame_iteration_witness :
    (⟨1, 0⟩ : FFT.CooleyTukeyFFT).OVERLAP_SIZE <
        (⟨1, 0⟩ : FFT.CooleyTukeyFFT).CHUNK_SIZE ∧
      (FFT.generate_freq_time_distribution ⟨1, 0⟩ [0, 0] 1 =
          ((List.range
              (FFT.numFramesFrom ⟨1, 0⟩ ([0, 0] : List ℝ).length 0)).map fun i =>
            FFT.frameAt ⟨1, 0⟩ [0, 0] 1
              (i * ((⟨1, 0⟩ : FFT.CooleyTukeyFFT).CHUNK_SIZE -
                (⟨1, 0⟩ : FFT.CooleyTukeyFFT).OVERLAP_SIZE))) ∧
        (∀ i < FFT.numFramesFrom ⟨1, 0⟩ ([0, 0] : List ℝ).length 0,
            i * ((⟨1, 0⟩ : FFT.CooleyTukeyFFT).CHUNK_SIZE -
                (⟨1, 0⟩ : FFT.CooleyTukeyFFT).OVERLAP_SIZE) +
              (⟨1, 0⟩ : FFT.CooleyTukeyFFT).CHUNK_SIZE ≤
                ([0, 0] : List ℝ).length) ∧
          ([0, 0] : List ℝ).length <
              FFT.numFramesFrom ⟨1, 0⟩ ([0, 0] : List ℝ).length 0 *
                  ((⟨1, 0⟩ : FFT.CooleyTukeyFFT).CHUNK_SIZE -
                    (⟨1, 0⟩ : FFT.CooleyTukeyFFT).OVERLAP_SIZE) +
                (⟨1, 0⟩ : FFT.CooleyTukeyFFT).CHUNK_SIZE ∧
            (FFT.generate_freq_time_distribution ⟨1, 0⟩ [0, 0] 1).map
                (fun fr => fr.time) =
              (List.range
                  (FFT.numFramesFrom ⟨1, 0⟩ ([0, 0] : List ℝ).length 0)).map
                fun i =>
                  ((i * ((⟨1, 0⟩ : FFT.CooleyTukeyFFT).CHUNK_SIZE -
                      (⟨1, 0⟩ : FFT.CooleyTukeyFFT).OVERLAP_SIZE) : ℕ) : ℝ) /
                    ((1 : ℕ) : ℝ)) :=
  ⟨by decide, c10_frame_iteration ⟨1, 0⟩ [0, 0] 1 (by decide)⟩

/-- C7.  The voter cannot fail: an empty query fingerprint list yields an empty
result, and when no query hash occurs in the lookup map the matched-song set is
empty, so any faithful enumeration order is empty and the result is again
empty. -/
theorem c7_empty_inputs (query : List FingerprintInfo)
    (db : List (ℕ × List (ℕ × ℚ))) (d : ℚ) (order : List ℕ) (k : ℕ)
    (hq : ∀ fp ∈ query, db.lookup fp.hash = none)
    (hord : ∀ s ∈ order, s ∈ matchedSongs query db) :
    vote_best_matches [] db d order k = [] ∧
      vote_best_matches query db d order k = [] := by
  constructor
  · rfl
  · have hms : matchedSongs query db = [] := by
      simp only [matchedSongs, List.flatMap_eq_nil_iff]
      intro fp hfp
      rw [hq fp hfp]
      rfl
    have hordnil : order = [] := by
      rw [hms] at hord
      exact List.eq_nil_iff_forall_not_mem.mpr fun s hs => by simp at hord; exact hord s hs
    subst hordnil
    unfold vote_best_matches
    split <;> simp

/-- C7, witness: a query whose only hash (5) is absent from the lookup map. -/
theorem c7_empty_inputs_witness :
    (∀ fp ∈ [(⟨5, 0, 1⟩ : FingerprintInfo)],
        ([(3, [(7, 0)])] : List (ℕ × List (ℕ × ℚ))).lookup fp.hash = none) ∧
      (∀ s ∈ ([] : List ℕ),
          s ∈ matchedSongs [⟨5, 0, 1⟩] [(3, [(7, 0)])]) ∧
        (vote_best_matches [] [(3, [(7, 0)])] 0 [] 5 = [] ∧
          vote_best_matches [⟨5, 0, 1⟩] [(3, [(7, 0)])] 0 [] 5 = []) :=
  ⟨by decide, by simp, c7_empty_inputs _ _ _ _ _ (by decide) (by simp)⟩

/-- C9, counterexample.  Songs 7 and 8 tie with score 0 on this query; both
`[7, 8]` and `[8, 7]` are legitimate hash-map enumeration orders of the matched
songs (the Rust `HashMap` fixes neither), and the two orders change the order of
the tied songs in the output, so equal inputs do not determine the output. -/
theorem c9_determinism_counterexample :
    [7, 8].Perm (matchedSongs [⟨1, 0, 1⟩] [(1, [(7, 0), (8, 0)])]) ∧
      [8, 7].Perm (matchedSongs [⟨1, 0, 1⟩] [(1, [(7, 0), (8, 0)])]) ∧
        vote_best_matches [⟨1, 0, 1⟩] [(1, [(7, 0), (8, 0)])] 0 [7, 8] 5 ≠
          vote_best_matches [⟨1, 0, 1⟩] [(1, [(7, 0), (8, 0)])] 0 [8, 7] 5 := by
  refine ⟨?_, ?_, ?_⟩
  · have : matchedSongs [⟨1, 0, 1⟩] [(1, [(7, 0), (8, 0)])] = [7, 8] := by
      norm_num [matchedSongs, List.lookup]
    rw [this]
  · have : matchedSongs [⟨1, 0, 1⟩] [(1, [(7, 0), (8, 0)])] = [7, 8] := by
      norm_num [matchedSongs, List.lookup]
    rw [this]
    decide
  · have hm7 : matchesFor [⟨1, 0, 1⟩] [(1, [(7, 0), (8, 0)])] 7 = [(0, 0)] := by
      decide
    have hm8 : matchesFor [⟨1, 0, 1⟩] [(1, [(7, 0), (8, 0)])] 8 = [(0, 0)] := by
      decide
    have hs7 : scoreFor [⟨1, 0, 1⟩] [(1, [(7, 0), (8, 0)])] 7 = (0, 0) := by
      simp only [scoreFor, hm7]
      norm_num [pairCount, avgOffset, List.countP_cons, List.countP_nil]
    have hs8 : scoreFor [⟨1, 0, 1⟩] [(1, [(7, 0), (8, 0)])] 8 = (0, 0) := by
      simp only [scoreFor, hm8]
      norm_num [pairCount, avgOffset, List.countP_cons, List.countP_nil]
    have hsort1 : ([⟨7, 0, 0⟩, ⟨8, 0, 0⟩] : List VoteResult).mergeSort
        (fun a b => decide (b.score ≤ a.score)) = [⟨7, 0, 0⟩, ⟨8, 0, 0⟩] :=
      List.mergeSort_of_sorted (by decide)
    have hsort2 : ([⟨8, 0, 0⟩, ⟨7, 0, 0⟩] : List VoteResult).mergeSort
        (fun a b => decide (b.score ≤ a.score)) = [⟨8, 0, 0⟩, ⟨7, 0, 0⟩] :=
      List.mergeSort_of_sorted (by decide)
    have h1 : vote_best_matches [⟨1, 0, 1⟩] [(1, [(7, 0), (8, 0)])] 0 [7, 8] 5 =
        [⟨7, 0, 0⟩, ⟨8, 0, 0⟩] := by
      norm_num [vote_best_matches, hs7, hs8, hsort1]
    have h2 : vote_best_matches [⟨1, 0, 1⟩] [(1, [(7, 0), (8, 0)])] 0 [8, 7] 5 =
        [⟨8, 0, 0⟩, ⟨7, 0, 0⟩] := by
      norm_num [vote_best_matches, hs7, hs8, hsort2]
    rw [h1, h2]
    simp


theorem resampleLoop_eq_map (samples : List ℚ) (r : ℚ) (hr : 0 < r) :
    ∀ (rem i : ℕ),
      (∀ j, i ≤ j → j < i + rem → (⌊(j : ℚ) * r⌋).toNat < samples.length) →
      AP.resampleLoop samples r rem i =
        (List.range' i rem).map (AP.specResampleElem samples r) := by
  intro rem
  induction rem with
  | zero => intro i h; simp [AP.resampleLoop]
  | succ n ih =>
    intro i h
    have hk : (⌊(i : ℚ) * r⌋).toNat < samples.length := h i le_rfl (by omega)
    have hp : (0 : ℚ) ≤ (i : ℚ) * r := by positivity
    have hfl : 0 ≤ ⌊(i : ℚ) * r⌋ := Int.floor_nonneg.mpr hp
    have hq : FP.qtrunc ((i : ℚ) * r) = ⌊(i : ℚ) * r⌋ := by simp [FP.qtrunc, hp]
    have hcast : (((⌊(i : ℚ) * r⌋).toNat : ℕ) : ℚ) = ((⌊(i : ℚ) * r⌋ : ℤ) : ℚ) := by
      exact_mod_cast congrArg (fun z : ℤ => (z : ℚ)) (Int.toNat_of_nonneg hfl)
    have hrec := ih (i + 1) (fun j hj1 hj2 => h j (by omega) (by omega))
    rw [List.range'_succ]
    simp only [List.map_cons]
    simp only [AP.resampleLoop, hq]
    by_cases hk1 : (⌊(i : ℚ) * r⌋).toNat + 1 < samples.length
    · rw [if_pos hk1, hrec]
      simp only [AP.specResampleElem, if_pos hk1, hcast]
    · rw [if_neg hk1, if_pos hk, hrec]
      simp only [AP.specResampleElem, if_neg hk1]


theorem dedupAux_sublist (seen : List (ℕ × ℤ)) (l : List FP.FingerprintInfo) :
    (DBC.dedupAux seen l).Sublist l := by
  induction l generalizing seen with
  | nil => simp [DBC.dedupAux]
  | cons f fs ih =>
    by_cases hf : DBC.dedupKey f ∈ seen
    · rw [DBC.dedupAux, if_pos hf]
      exact (ih seen).cons f
    · rw [DBC.dedupAux, if_neg hf]
      exact (ih _).cons₂ f

theorem dedupAux_key_not_mem (seen : List (ℕ × ℤ)) (l : List FP.FingerprintInfo) :
    ∀ g ∈ DBC.dedupAux seen l, DBC.dedupKey g ∉ seen := by
  induction l generalizing seen with
  | nil => simp [DBC.dedupAux]
  | cons f fs ih =>
    by_cases hf : DBC.dedupKey f ∈ seen
    · rw [DBC.dedupAux, if_pos hf]
      exact ih seen
    · rw [DBC.dedupAux, if_neg hf]
      intro g hg
      rcases List.mem_cons.mp hg with h | h
      · subst h; exact hf
      · intro hmem
        exact ih _ g h (List.mem_cons_of_mem _ hmem)

theorem dedupAux_keys_nodup (seen : List (ℕ × ℤ)) (l : List FP.FingerprintInfo) :
    ((DBC.dedupAux seen l).map DBC.dedupKey).Nodup := by
  induction l generalizing seen with
  | nil => simp [DBC.dedupAux]
  | cons f fs ih =>
    by_cases hf : DBC.dedupKey f ∈ seen
    · rw [DBC.dedupAux, if_pos hf]
      exact ih seen
    · rw [DBC.dedupAux, if_neg hf]
      rw [List.map_cons]
      refine List.nodup_cons.mpr ⟨?_, ih _⟩
      intro hmem
      rcases List.mem_map.mp hmem with ⟨g, hg, hkey⟩
      exact dedupAux_key_not_mem _ _ g hg (hkey ▸ List.mem_cons_self _ _)

theorem dedupAux_covers (seen : List (ℕ × ℤ)) (l : List FP.FingerprintInfo) :
    ∀ f ∈ l, DBC.dedupKey f ∈ seen ∨
      ∃ g ∈ DBC.dedupAux seen l, DBC.dedupKey g = DBC.dedupKey f := by
  induction l generalizing seen with
  | nil => simp
  | cons x xs ih =>
    intro f hf
    by_cases hx : DBC.dedupKey x ∈ seen
    · rw [DBC.dedupAux, if_pos hx]
      rcases List.mem_cons.mp hf with h | h
      · subst h; exact .inl hx
      · exact ih seen f h
    · rw [DBC.dedupAux, if_neg hx]
      rcases List.mem_cons.mp hf with h | h
      · subst h
        exact .inr ⟨f, List.mem_cons_self _ _, rfl⟩
      · rcases ih (DBC.dedupKey x :: seen) f h with hmem | ⟨g, hg, hkey⟩
        · rcases List.mem_cons.mp hmem with heq | hmem2
          · exact .inr ⟨x, List.mem_cons_self _ _, heq.symm⟩
          · exact .inl hmem2
        · exact .inr ⟨g, List.mem_cons_of_mem _ hg, hkey⟩

theorem specAuxCond_cons (seen : List (ℕ × ℤ)) (f : FP.FingerprintInfo)
    (fs : List FP.FingerprintInfo) (i : ℕ) :
    DBC.specAuxCond seen (f :: fs) (i + 1) =
      DBC.specAuxCond (DBC.dedupKey f :: seen) fs i := by
  simp only [DBC.specAuxCond, List.getD_cons_succ]
  rw [decide_eq_decide]
  constructor
  · rintro ⟨hnot, hall⟩
    refine ⟨?_, fun j hj => ?_⟩
    · intro hmem
      rcases List.mem_cons.mp hmem with heq | hmem2
      · have h0 := hall 0 (by omega)
        rw [List.getD_cons_zero] at h0
        exact h0 heq.symm
      · exact hnot hmem2
    · have hj1 := hall (j + 1) (by omega)
      rwa [List.getD_cons_succ] at hj1
  · rintro ⟨hnot2, hall2⟩
    refine ⟨fun hmem => hnot2 (List.mem_cons_of_mem _ hmem), fun j hj => ?_⟩
    cases j with
    | zero =>
      rw [List.getD_cons_zero]
      intro heq
      exact hnot2 (heq ▸ List.mem_cons_self _ _)
    | succ j =>
      rw [List.getD_cons_succ]
      exact hall2 j (by omega)

theorem specAuxList_congr (seen seen' : List (ℕ × ℤ)) (l : List FP.FingerprintInfo)
    (hss : ∀ x, x ∈ seen ↔ x ∈ seen') :
    DBC.specAuxList seen l = DBC.specAuxList seen' l := by
  unfold DBC.specAuxList
  congr 1
  apply List.filter_congr
  intro i hi
  simp only [DBC.specAuxCond]
  rw [decide_eq_decide, hss]

theorem specAuxList_cons (seen : List (ℕ × ℤ)) (f : FP.FingerprintInfo)
    (fs : List FP.FingerprintInfo) :
    DBC.specAuxList seen (f :: fs) =
      (if DBC.dedupKey f ∈ seen then [] else [f]) ++
        DBC.specAuxList (DBC.dedupKey f :: seen) fs := by
  unfold DBC.specAuxList
  rw [show (f :: fs).length = fs.length + 1 from rfl, List.range_succ_eq_map,
    List.filter_cons, List.filter_map]
  have hcond : DBC.specAuxCond seen (f :: fs) ∘ Nat.succ =
      DBC.specAuxCond (DBC.dedupKey f :: seen) fs := by
    funext i
    exact specAuxCond_cons seen f fs i
  rw [hcond]
  by_cases hf : DBC.dedupKey f ∈ seen
  · have h0 : DBC.specAuxCond seen (f :: fs) 0 = false := by
      simp [DBC.specAuxCond, hf]
    rw [h0]
    simp only [Bool.false_eq_true, if_false, if_pos hf, List.nil_append,
      List.map_map]
    apply List.map_congr_left
    intro i hi
    simp
  · have h0 : DBC.specAuxCond seen (f :: fs) 0 = true := by
      simp [DBC.specAuxCond, hf]
    rw [h0]
    simp only [if_true, if_neg hf, List.map_cons, List.getD_cons_zero,
      List.singleton_append, List.map_map]
    congr 1

theorem dedupAux_eq_specAuxList (l : List FP.FingerprintInfo) :
    ∀ seen, DBC.dedupAux seen l = DBC.specAuxList seen l := by
  induction l with
  | nil => intro seen; simp [DBC.dedupAux, DBC.specAuxList]
  | cons f fs ih =>
    intro seen
    rw [specAuxList_cons]
    by_cases hf : DBC.dedupKey f ∈ seen
    · rw [DBC.dedupAux, if_pos hf, if_pos hf, List.nil_append, ih seen,
        specAuxList_congr seen (DBC.dedupKey f :: seen) fs]
      intro x
      constructor
      · exact List.mem_cons_of_mem _
      · intro hx
        rcases List.mem_cons.mp hx with he | hx2
        · exact he ▸ hf
        · exact hx2
    · rw [DBC.dedupAux, if_neg hf, if_neg hf, ih (DBC.dedupKey f :: seen),
        List.singleton_append]

theorem specFirstOccurrences_eq (l : List FP.FingerprintInfo) :
    DBC.specFirstOccurrences l = DBC.specAuxList [] l := by
  unfold DBC.specFirstOccurrences DBC.specAuxList
  congr 1
  apply List.filter_congr
  intro i hi
  simp [DBC.specAuxCond]

/-- C3.  The source's own comment states
`(a + bi)*(c + di) => (ac - bd) + i(ad + bc)`, but the line below it computes
the imaginary part as `self.im * rhs.re + self.im * rhs.re`.  At
`(0 + 1i)·(1 + 0i)` the code returns `0 + 2i` while the correct product is
`0 + 1i`. -/
theorem c3_complex_mul_code_bug :
    FFT.Complex.mul ⟨0, 1⟩ ⟨1, 0⟩ = ⟨0, 2⟩ ∧
      FFT.Complex.spec_mul ⟨0, 1⟩ ⟨1, 0⟩ = ⟨0, 1⟩ ∧
        FFT.Complex.mul ⟨0, 1⟩ ⟨1, 0⟩ ≠ FFT.Complex.spec_mul ⟨0, 1⟩ ⟨1, 0⟩ := by
  refine ⟨?_, ?_, ?_⟩ <;>
    norm_num [FFT.Complex.mul, FFT.Complex.spec_mul, FFT.Complex.mk.injEq]

/-- C4.  On the frame `[1, 1]` (N = 2) the source's windowing multiplies
sample 0 by `0.5·cos(1 - 0) = 0.5·cos 1 ≈ 0.27`, whereas the Hann coefficient
`0.5·(1 − cos 0)` is `0`: the code computes `0.5·cos(1 − 2πi/(N−1))` instead of
the claimed `0.5·(1 − cos(2πi/(N−1)))`. -/
theorem c4_hann_window_code_bug :
    FFT.apply_hann_window [1, 1] =
        [0.5 * Real.cos 1, 0.5 * Real.cos (1 - 2 * Real.pi)] ∧
      FFT.specHannWindow [1, 1] = [0, 0] ∧
        FFT.apply_hann_window [1, 1] ≠ FFT.specHannWindow [1, 1] := by
  have h1 : FFT.apply_hann_window [1, 1] =
      [0.5 * Real.cos 1, 0.5 * Real.cos (1 - 2 * Real.pi)] := by
    simp [FFT.apply_hann_window, List.enum, List.enumFrom]
    norm_num
  have h2 : FFT.specHannWindow [1, 1] = [0, 0] := by
    simp [FFT.specHannWindow, List.enum, List.enumFrom]
    norm_num [Real.cos_two_pi]
  refine ⟨h1, h2, ?_⟩
  rw [h1, h2]
  intro h
  have hc : 0.5 * Real.cos 1 = 0 := by
    have := List.head_eq_of_cons_eq h
    exact this
  have : (0 : ℝ) < Real.cos 1 := Real.cos_one_pos
  nlinarith

/-- C5.  With positive rates, `resample_linear` returns the input unchanged
when the rates are equal; otherwise, with `r = from_rate / to_rate` and
`new_len = ⌊len / r⌋`, it emits exactly `new_len` samples, the `i`-th being
`x[k] + f·(x[k+1] − x[k])` for `p = i·r`, `k = ⌊p⌋`, `f = p − k` when
`k + 1 < len`, and `x[k]` otherwise (`k < len` always holds for `i < new_len`,
so the loop's `break` branch is never taken). -/
theorem c5_resample_linear (samples : List ℚ) (from_rate to_rate : ℕ)
    (h1 : 0 < from_rate) (h2 : 0 < to_rate) :
    (from_rate = to_rate → AP.resample_linear samples from_rate to_rate = samples) ∧
      (from_rate ≠ to_rate →
        AP.resample_linear samples from_rate to_rate =
          (List.range
              ((⌊(samples.length : ℚ) / ((from_rate : ℚ) / (to_rate : ℚ))⌋).toNat)).map
            (AP.specResampleElem samples ((from_rate : ℚ) / (to_rate : ℚ)))) := by
  constructor
  · intro h
    simp [AP.resample_linear, h]
  · intro hne
    unfold AP.resample_linear
    rw [if_neg hne]
    have hr : 0 < (from_rate : ℚ) / (to_rate : ℚ) := by
      apply div_pos <;> exact_mod_cast (by assumption)
    have hlen0 : (0 : ℚ) ≤ (samples.length : ℚ) / ((from_rate : ℚ) / (to_rate : ℚ)) := by
      positivity
    have hq : FP.qtrunc ((samples.length : ℚ) / ((from_rate : ℚ) / (to_rate : ℚ))) =
        ⌊(samples.length : ℚ) / ((from_rate : ℚ) / (to_rate : ℚ))⌋ := by
      simp [FP.qtrunc, hlen0]
    simp only [hq]
    rw [List.range_eq_range']
    apply resampleLoop_eq_map samples _ hr
    intro j hj0 hjN
    have hflN : 0 ≤ ⌊(samples.length : ℚ) / ((from_rate : ℚ) / (to_rate : ℚ))⌋ :=
      Int.floor_nonneg.mpr hlen0
    have hj1 : ((j : ℤ) + 1) ≤
        ⌊(samples.length : ℚ) / ((from_rate : ℚ) / (to_rate : ℚ))⌋ := by omega
    have hq2 : ((j : ℚ) + 1) ≤ (samples.length : ℚ) / ((from_rate : ℚ) / (to_rate : ℚ)) := by
      have h3 := Int.le_floor.mp hj1
      push_cast at h3
      linarith
    have hlt : (j : ℚ) * ((from_rate : ℚ) / (to_rate : ℚ)) < (samples.length : ℚ) := by
      have h3 : ((j : ℚ) + 1) * ((from_rate : ℚ) / (to_rate : ℚ)) ≤ (samples.length : ℚ) :=
        (le_div_iff₀ hr).mp hq2
      nlinarith
    have hfloor : ⌊(j : ℚ) * ((from_rate : ℚ) / (to_rate : ℚ))⌋ < (samples.length : ℤ) :=
      Int.floor_lt.mpr (by exact_mod_cast hlt)
    have hnn : 0 ≤ ⌊(j : ℚ) * ((from_rate : ℚ) / (to_rate : ℚ))⌋ :=
      Int.floor_nonneg.mpr (by positivity)
    omega

/-- C5, witness at samples `[1, 3]`, rates 2 → 1: one output sample, `x[0]`. -/
theorem c5_resample_linear_witness :
    (0 : ℕ) < 2 ∧ (0 : ℕ) < 1 ∧ (2 : ℕ) ≠ 1 ∧
      AP.resample_linear [1, 3] 2 1 = [1] := by
  refine ⟨by norm_num, by norm_num, by norm_num, ?_⟩
  have h := (c5_resample_linear [1, 3] 2 1 (by norm_num) (by norm_num)).2 (by norm_num)
  rw [h]
  have hr1 : List.range 1 = [0] := rfl
  norm_num [hr1, AP.specResampleElem]


/-- C8.  The ingest writer's deduplication keeps exactly the first occurrence
of each distinct key `(hash, (anchor_time·100).round() as i64)` in input order
(it equals the declarative first-occurrence filter), the kept keys are
pairwise distinct, the kept list is a subsequence of the input, every input
key is represented, and the rows submitted for insertion for one `song_id` are
exactly the deduplicated fingerprints turned into rows. -/
theorem c8_dedup_first_occurrence (l : List FP.FingerprintInfo) (sid : ℤ) :
    DBC.dedupFingerprints l = DBC.specFirstOccurrences l ∧
      ((DBC.dedupFingerprints l).map DBC.dedupKey).Nodup ∧
        (DBC.dedupFingerprints l).Sublist l ∧
          (∀ f ∈ l, ∃ g ∈ DBC.dedupFingerprints l,
              DBC.dedupKey g = DBC.dedupKey f) ∧
            DBC.write_fingerprints_rows sid l =
              (DBC.specFirstOccurrences l).map fun f =>
                ⟨DBC.u64AsI64 f.hash, f.abs_anchor_tm_offset, sid⟩ := by
  have heq : DBC.dedupFingerprints l = DBC.specFirstOccurrences l := by
    rw [specFirstOccurrences_eq]
    exact dedupAux_eq_specAuxList l []
  refine ⟨heq, dedupAux_keys_nodup _ _, dedupAux_sublist _ _, ?_, ?_⟩
  · intro f hf
    rcases dedupAux_covers [] l f hf with h | h
    · simp at h
    · exact h
  · unfold DBC.write_fingerprints_rows
    rw [heq]

/-- C8, witness: the fingerprint at time 0.001 s shares the 10 ms-quantized
key `(1, 0)` with the earlier fingerprint at time 0 s; its key is represented
in the deduplicated output. -/
theorem c8_dedup_first_occurrence_witness :
    (⟨1, 1 / 1000, 1⟩ : FP.FingerprintInfo) ∈
        ([⟨1, 0, 1⟩, ⟨1, 1 / 1000, 1⟩, ⟨2, 5, 1⟩] : List FP.FingerprintInfo) ∧
      ∃ g ∈ DBC.dedupFingerprints [⟨1, 0, 1⟩, ⟨1, 1 / 1000, 1⟩, ⟨2, 5, 1⟩],
        DBC.dedupKey g = DBC.dedupKey ⟨1, 1 / 1000, 1⟩ :=
  have hmem : (⟨1, 1 / 1000, 1⟩ : FP.FingerprintInfo) ∈
      ([⟨1, 0, 1⟩, ⟨1, 1 / 1000, 1⟩, ⟨2, 5, 1⟩] : List FP.FingerprintInfo) :=
    List.mem_cons_of_mem _ (List.mem_cons_self _ _)
  ⟨hmem, (c8_dedup_first_occurrence [⟨1, 0, 1⟩, ⟨1, 1 / 1000, 1⟩, ⟨2, 5, 1⟩] 7).2.2.2.1
    _ hmem⟩

/-- C9, amended.  For every input and every enumeration order of the matched
songs, the voter's output is sorted by score descending and has at most `top_k`
rows; the output is a deterministic function of the query, the lookup map and
the hash-map enumeration order, but the relative order of equal-scored songs
follows that enumeration order, which Rust's `HashMap` does not fix across
runs. -/
theorem c9_output_order_amended (query : List FingerprintInfo)
    (db : List (ℕ × List (ℕ × ℚ))) (d : ℚ) (order : List ℕ) (k : ℕ) :
    (vote_best_matches query db d order k).Pairwise
        (fun a b => b.score ≤ a.score) ∧
      (vote_best_matches query db d order k).length ≤ k := by
  unfold vote_best_matches
  split
  · simp
  · constructor
    · refine List.Pairwise.imp (fun h => of_decide_eq_true h) ?_
      refine List.Pairwise.sublist (List.take_sublist _ _) ?_
      refine List.sorted_mergeSort ?_ ?_ _
      · intro a b c hab hbc
        simp only [decide_eq_true_eq] at *
        exact le_trans hbc hab
      · intro a b
        simp only [Bool.or_eq_true, decide_eq_true_eq]
        exact le_total _ _
    · exact List.length_take_le _ _
